import Mathlib

/-
  Verification development for the forsta-web-messenger call engine
  (src/app/views/call.js).  The JavaScript operations relevant to the
  frozen claims are shallowly embedded below: JS strings are modelled as
  `List Char`, JS numbers occurring in the bandwidth-shaping code as a
  three-valued type (`undefined` / `NaN` / natural number — the values
  that actually arise there), mutable per-object state as explicit state
  records, and the observable side effects of the stateful operations as
  explicit event traces.
-/

/-! ## JS string primitives (character-list view of JS strings) -/

/-- A JS string, viewed as its character sequence. -/
abbrev Line := List Char

/-- Character data of a Lean string literal, used to write `Line` constants. -/
def cs (s : String) : Line := s.data

/-- JS `String.prototype.startsWith(pat)` on the character-list view. -/
def startsWithL : Line → Line → Bool
  | [], _ => true
  | _ :: _, [] => false
  | p :: ps, c :: rest => p == c && startsWithL ps rest

/-- JS `str.split(':')` on the character-list view: the list of groups
    between colons (always non-empty). -/
def splitOnColon : Line → List Line
  | [] => [[]]
  | c :: rest =>
    match splitOnColon rest with
    | [] => [[]]
    | g :: gs => if c == ':' then [] :: g :: gs else (c :: g) :: gs

/-- Decimal digit character for a digit value (codepoint 48 + d). -/
def digitChar (d : Nat) : Char := Char.ofNat (48 + d)

/-- Digit value of a decimal digit character, `none` on a non-digit. -/
def digitToNat (c : Char) : Option Nat :=
  if 48 ≤ c.toNat && c.toNat ≤ 57 then some (c.toNat - 48) else none

/-- Decimal rendering of a natural number (model of JS number-to-string
    conversion for the non-negative integers produced by the code). -/
def natDigits (n : Nat) : List Char :=
  if _hlt : n < 10 then [digitChar n]
  else natDigits (n / 10) ++ [digitChar (n % 10)]
  decreasing_by exact Nat.div_lt_self (by omega) (by omega)

/-- Accumulating decimal parser over digit characters; `none` models NaN. -/
def charsToNatAux : Nat → List Char → Option Nat
  | acc, [] => some acc
  | acc, c :: rest =>
    match digitToNat c with
    | some d => charsToNatAux (acc * 10 + d) rest
    | none => none

/-- Model of JS `Number(str)` restricted to the strings the bandwidth code
    meets: `""` is 0, a string of decimal digits is its value, anything
    else is NaN (`none`).  (Signs, blanks and fractions do not occur in
    the `b=` values this code parses.) -/
def charsToNat : List Char → Option Nat
  | [] => some 0
  | c :: rest => charsToNatAux 0 (c :: rest)

/-! ## BandwidthShaper: `limitSDPBandwidth` (call.js lines 75-118) -/

/-- The JS `bandwidth` variable of `limitSDPBandwidth` ranges over
    `undefined`, `NaN` and non-negative numbers; this type carries exactly
    those states. -/
inductive JSNum where
  | undef : JSNum
  | nan : JSNum
  | num : Nat → JSNum
deriving DecidableEq, Repr

/-- JS truthiness of the `bandwidth` variable: `undefined`, `NaN` and `0`
    are falsy. -/
def JSNum.truthy : JSNum → Bool
  | .num n => n != 0
  | _ => false

/-- The numeric value of a truthy `JSNum`. -/
def JSNum.val : JSNum → Nat
  | .num n => n
  | _ => 0

/-- `Number(line.split(':')[1]) * adjust` for a `b=` line, where
    `adjust` is 1024 for `b=AS` lines and 1 otherwise; `none` is NaN. -/
def bLineBps (line : Line) : Option Nat :=
  let adjust : Nat := if startsWithL (cs "b=AS") line then 1024 else 1
  match (splitOnColon line).get? 1 with
  | none => none
  | some v => (charsToNat v).map (· * adjust)

/-- One `b=`-line step of the scan loop:
    `if (!bandwidth || bps < bandwidth) { bandwidth = bps; }`. -/
def updateBW (bw : JSNum) (bps : Option Nat) : JSNum :=
  if !bw.truthy then
    match bps with
    | some m => .num m
    | none => .nan
  else
    match bps, bw with
    | some m, .num n => if m < n then .num m else bw
    | _, _ => bw

/-- The scan loop of `limitSDPBandwidth` from the line after `m=video`
    on: removes each `b=` line it reaches (folding its value into the
    bandwidth), stops at the next `m=` line.  Because the JS loop uses
    `sdp.splice(i, 1)` without adjusting `i`, the line immediately after
    a removed `b=` line is kept without being examined. -/
def scanB : JSNum → List Line → JSNum × List Line
  | bw, [] => (bw, [])
  | bw, l :: rest =>
    if startsWithL (cs "b=") l then
      let bw2 := updateBW bw (bLineBps l)
      match rest with
      | [] => (bw2, [])
      | skip :: rest2 =>
        let r := scanB bw2 rest2
        (r.1, skip :: r.2)
    else if startsWithL (cs "m=") l then (bw, l :: rest)
    else
      let r := scanB bw rest
      (r.1, l :: r.2)

/-- Split at the first `m=video` line (the `videoOffset` discovery):
    lines before it, the line itself, the lines after it. -/
def splitAtVideo : List Line → Option (List Line × Line × List Line)
  | [] => none
  | l :: rest =>
    if startsWithL (cs "m=video") l then some ([], l, rest)
    else
      match splitAtVideo rest with
      | none => none
      | some (pre, v, r) => some (l :: pre, v, r)

/-- The `b=TIAS` line inserted for a bandwidth of `n` bps. -/
def tiasLine (n : Nat) : Line := cs "b=TIAS:" ++ natDigits n

/-- The `b=AS` line inserted for a bandwidth of `n` bps
    (`kbps = Math.round(bandwidth / 1024)`). -/
def asLine (n : Nat) : Line := cs "b=AS:" ++ natDigits ((n + 512) / 1024)

/-- The insertion loop: after the first `c=IN` line at or past the video
    offset, insert the `b=TIAS` and `b=AS` lines for bandwidth `n`. -/
def insertBW (n : Nat) : List Line → List Line
  | [] => []
  | l :: rest =>
    if startsWithL (cs "c=IN") l then l :: tiasLine n :: asLine n :: rest
    else l :: insertBW n rest

/-- `limitSDPBandwidth` on the line list of the session description:
    scan/strip `b=` lines of the video section folding their values into
    the bandwidth, then (when the bandwidth is truthy) insert the two
    bitrate lines after the connection-data line.  Without an `m=video`
    line nothing happens (the insertion loop never runs, since
    `videoOffset` stays `undefined`). -/
def limitLines (bandwidth : JSNum) (sdp : List Line) : List Line :=
  match splitAtVideo sdp with
  | none => sdp
  | some (pre, v, rest) =>
    let r := scanB bandwidth rest
    let rest2 := if r.1.truthy then insertBW r.1.val r.2 else r.2
    pre ++ v :: rest2

/-- A session description: type plus sdp payload (as its line list;
    the JS code splits the payload on CRLF and rejoins it). -/
structure SessionDesc where
  descType : Line
  sdp : List Line
deriving DecidableEq, Repr

/-- `limitSDPBandwidth(desc, bandwidth)` (call.js lines 75-118). -/
def limitSDPBandwidth (desc : SessionDesc) (bandwidth : JSNum) : SessionDesc :=
  { descType := desc.descType, sdp := limitLines bandwidth desc.sdp }

/-! ### Effective-bitrate observations on a description -/

/-- The video section of an sdp line list: the lines strictly between the
    first `m=video` line and the next `m=` line. -/
def videoSection (sdp : List Line) : List Line :=
  match splitAtVideo sdp with
  | none => []
  | some (_, _, rest) => rest.takeWhile (fun l => !startsWithL (cs "m=") l)

/-- The effective video bitrate of a description in bps, read off the
    first `b=` line of the video section the way both the claim and the
    scan loop read it: a `b=AS` value counts times 1024, any other `b=`
    value counts literally. -/
def effectiveVideoBitrate (sdp : List Line) : Option Nat :=
  ((videoSection sdp).find? (fun l => startsWithL (cs "b=") l)).bind bLineBps

/-- The `b=TIAS` value (bps) of the video section: first `b=TIAS` line's
    number. -/
def effTIAS (sdp : List Line) : Option Nat :=
  ((videoSection sdp).find? (fun l => startsWithL (cs "b=TIAS") l)).bind
    (fun l => ((splitOnColon l).get? 1).bind charsToNat)

/-- The `b=AS` value (kbps) of the video section: first `b=AS` line's
    number. -/
def effAS (sdp : List Line) : Option Nat :=
  ((videoSection sdp).find? (fun l => startsWithL (cs "b=AS") l)).bind
    (fun l => ((splitOnColon l).get? 1).bind charsToNat)

/-! ## PeerLink: `ForstaRTCPeerConnection` staleness (call.js lines 146-159) -/

/-- The metadata of one peer connection that `isConnected`/`isStale`
    consult: current ICE connection state string, the `connected` meta
    timestamp (set when the state is first observed connected/completed)
    and the `added` meta timestamp (set at registration). -/
structure PeerMeta where
  iceConnectionState : String
  connectedAt : Option Nat
  addedAt : Nat
deriving DecidableEq, Repr

/-- `isConnected()`: the ICE state is connected or completed. -/
def isConnected (p : PeerMeta) : Bool :=
  p.iceConnectionState == "connected" || p.iceConnectionState == "completed"

/-- `isStale()` evaluated at time `now` (`Date.now()`). -/
def isStale (p : PeerMeta) (now : Nat) : Bool :=
  if isConnected p then false
  else
    match p.connectedAt with
    | some lastConnected => 30000 < now - lastConnected
    | none => 30000 < now - p.addedAt

/-- The stale-link selection of the `peerCheck` reconciliation pass
    (call.js line 1333): `peers.filter(x => x.isStale())`. -/
def staleEligible (peers : List PeerMeta) (now : Nat) : List PeerMeta :=
  peers.filter (fun p => isStale p now)

/-! ## CandidateQueue (call.js lines 825-837)

`this._earlyICECandidates` is a `F.util.DefaultMap(Array)`.  That class
is code of this repository not under `src/`. -/

/-- Modelled from the spec: `F.util.DefaultMap(Array)`, the
    per-remote-connection candidate buffer of §4.2 — a map from peer id
    to an ordered candidate sequence whose entry is created lazily (as a
    fresh empty array) on first access, with the usual `Map` `has` and
    `delete`.  Candidates are left abstract (`Nat`).  Represented as an
    association list; construction through `enqueueEarlyICECandidates`
    keeps keys unique. -/
abbrev CandQueue := List (String × List Nat)

/-- Association-list lookup (`Map.get` of an existing entry / `Map.has`). -/
def dmGet : CandQueue → String → Option (List Nat)
  | [], _ => none
  | e :: rest, k => if e.1 == k then some e.2 else dmGet rest k

/-- Association-list removal of the entry for a key (`Map.delete`). -/
def dmErase : CandQueue → String → CandQueue
  | [], _ => []
  | e :: rest, k => if e.1 == k then rest else e :: dmErase rest k

/-- `enqueueEarlyICECandidates(peerId, icecandidates)` (call.js lines
    825-828): fetch (lazily creating) the bucket and append the batch. -/
def enqueueEarlyICECandidates : CandQueue → String → List Nat → CandQueue
  | [], peerId, icecandidates => [(peerId, icecandidates)]
  | e :: rest, peerId, icecandidates =>
    if e.1 == peerId then (e.1, e.2 ++ icecandidates) :: rest
    else e :: enqueueEarlyICECandidates rest peerId icecandidates

/-- `drainEarlyICECandidates(peerId)` (call.js lines 830-837): `undefined`
    (`none`) when no entry exists, otherwise the bucket, deleting the
    entry.  Returns the result together with the post-state. -/
def drainEarlyICECandidates (q : CandQueue) (peerId : String) :
    Option (List Nat) × CandQueue :=
  match dmGet q peerId with
  | none => (none, q)
  | some bucket => (some bucket, dmErase q peerId)

/-- All candidates enqueued for a given peer id by a call sequence, in
    arrival order. -/
def gatherFor (ops : List (String × List Nat)) (peerId : String) : List Nat :=
  ((ops.filter (fun op => op.1 == peerId)).map (fun op => op.2)).flatten

/-- The queue resulting from a sequence of enqueue calls on the initially
    empty DefaultMap. -/
def runEnqueues (ops : List (String × List Nat)) : CandQueue :=
  ops.foldl (fun q op => enqueueEarlyICECandidates q op.1 op.2) []

/-! ## PresenterSelector: `getMostPresentableMemberView`
    (call.js lines 675-694) -/

/-- A member view as presenter selection sees it: an identity and the
    smoothed RMS loudness (`soundRMS`).  JS views are distinct objects;
    `vid` models object identity, and the float loudness is modelled as a
    rational. -/
structure MemberView where
  vid : Nat
  soundRMS : ℚ
deriving DecidableEq

/-- The loudest-selection loop:
    `if (!loudest || view.soundRMS - loudest.soundRMS >= 0.01) loudest = view`,
    written as an accumulator recursion over the iteration order. -/
def presentableFold (init : Option MemberView) : List MemberView → Option MemberView
  | [] => init
  | v :: rest =>
    match init with
    | none => presentableFold (some v) rest
    | some w =>
      if (1 : ℚ)/100 ≤ v.soundRMS - w.soundRMS then presentableFold (some v) rest
      else presentableFold (some w) rest

/-- `getMostPresentableMemberView()`: `remotes` is the member-view set
    with the outgoing view deleted, in iteration (insertion) order;
    `presenting` is `this._presenting` (non-null when this runs, see
    `checkSoundLevels`). -/
def getMostPresentableMemberView (outV presenting : MemberView)
    (remotes : List MemberView) : MemberView :=
  match remotes with
  | [] => outV
  | [v] => v
  | a :: b :: t =>
    let init := if presenting ≠ outV then some presenting else none
    (presentableFold init (a :: b :: t)).getD outV

/-! ## Track replacement: `replaceMembersOutTrack`
    (call.js lines 791-809) -/

/-- A local media track: object identity plus kind. -/
structure MediaTrack where
  tid : Nat
  kind : String
deriving DecidableEq, Repr

/-- A transceiver as the replacement pass sees it. -/
structure Transceiver where
  stopped : Bool
  receiverTrackKind : Option String
  senderTrack : Option MediaTrack
  direction : String
deriving DecidableEq, Repr

/-- An underlying peer connection, reduced to its transceiver list. -/
structure RTCPeerM where
  transceivers : List Transceiver
deriving DecidableEq, Repr

/-- The match test of the inner loop:
    `!t.stopped && recvTrackKind === track.kind`. -/
def matchesKind (track : MediaTrack) (t : Transceiver) : Bool :=
  !t.stopped && t.receiverTrackKind == some track.kind

/-- Effect on one transceiver: matching ones get `direction = 'sendrecv'`
    and their sender track replaced. -/
def replaceInTransceiver (track : MediaTrack) (t : Transceiver) : Transceiver :=
  if matchesKind track t then
    { t with direction := "sendrecv", senderTrack := some track }
  else t

/-- Per-peer pass: mutate all matching transceivers, report whether any
    matched (the `replaced` flag). -/
def replacePeerTracks (track : MediaTrack) (p : RTCPeerM) : RTCPeerM × Bool :=
  ({ transceivers := p.transceivers.map (replaceInTransceiver track) },
   p.transceivers.any (matchesKind track))

/-- The peers loop of one member view: each peer with no matching
    transceiver throws
    `'No transceivers found to replace sender track on'`. -/
def replacePeersSeq (track : MediaTrack) :
    List RTCPeerM → Except String (List RTCPeerM)
  | [] => .ok []
  | p :: ps =>
    let r := replacePeerTracks track p
    if r.2 then (replacePeersSeq track ps).map (r.1 :: ·)
    else .error "No transceivers found to replace sender track on"

/-- `replaceMembersOutTrack(track)`: iterate every member view's peers;
    the views are given as their peer lists. -/
def replaceMembersOutTrack (track : MediaTrack) :
    List (List RTCPeerM) → Except String (List (List RTCPeerM))
  | [] => .ok []
  | view :: views =>
    match replacePeersSeq track view with
    | .error e => .error e
    | .ok view2 => (replaceMembersOutTrack track views).map (view2 :: ·)

/-- Whether the pass raised (threw) rather than completing. -/
def isThrown {α : Type} : Except String α → Bool
  | .error _ => true
  | .ok _ => false

/-- Total number of matching (non-stopped, kind-equal) transceivers
    across all peers of all member views. -/
def totalMatches (track : MediaTrack) (views : List (List RTCPeerM)) : Nat :=
  (views.map (fun view =>
    (view.map (fun p => (p.transceivers.filter (matchesKind track)).length)).sum)).sum

/-! ## CallView.join (call.js lines 414-437) -/

/-- The slice of CallView state that `join` reads and writes.  Tracks are
    identified by `Nat` ids; `videoTracks` are the video tracks of the
    outgoing stream, `stoppedTracks` the ids on which `stop()` was
    called. -/
structure JoinCtx where
  joining : Bool
  joined : Bool
  joinType : Option String
  audioOnly : Bool
  videoTracks : List Nat
  stoppedTracks : List Nat
deriving DecidableEq, Repr

/-- Observable events of one `join` invocation. -/
inductive JEvent where
  | logIgnore : JEvent
  | removeVideoTrack : Nat → JEvent
  | stopTrack : Nat → JEvent
  | sendJoin : JEvent
  | setJoined : JEvent
deriving DecidableEq, Repr

/-- Result of a `join` invocation: post-state, event trace, and whether
    the invocation re-threw the send failure. -/
structure JoinOutcome where
  state : JoinCtx
  trace : List JEvent
  threw : Bool
deriving DecidableEq, Repr

/-- `join(options)` with `typ = options.type` and the outcome of
    `this.manager.sendJoin` supplied as `sendOk` (true: resolves; false:
    rejects).  Faithful to the control flow: early return while already
    joining; `joinType = type || 'video'`; audio-only strips and stops
    the outgoing video tracks; `setJoined(true)` only after a successful
    send; the `finally` clears `_joining` on both paths. -/
def join (s : JoinCtx) (typ : Option String) (sendOk : Bool) : JoinOutcome :=
  if s.joining then ⟨s, [.logIgnore], false⟩
  else
    let s1 : JoinCtx := { s with joining := true, joinType := some (typ.getD "video") }
    let s2 : JoinCtx :=
      if typ == some "audio" then
        { s1 with audioOnly := true, videoTracks := [],
                  stoppedTracks := s1.stoppedTracks ++ s1.videoTracks }
      else s1
    let evs : List JEvent :=
      if typ == some "audio" then
        s.videoTracks.flatMap (fun t => [JEvent.removeVideoTrack t, JEvent.stopTrack t])
      else []
    if sendOk then
      ⟨{ s2 with joined := true, joining := false }, evs ++ [.sendJoin, .setJoined], false⟩
    else
      ⟨{ s2 with joining := false }, evs ++ [.sendJoin], true⟩

/-! ## CallMemberView.removePeer / removeStream
    (call.js lines 1511-1528, 1603-1626) -/

/-- The slice of CallMemberView state that `removePeer` touches: the
    peer map (map key to peer object identity), the streaming peer, the
    rendered stream, and the set of peers with view listeners bound. -/
structure MemberCState where
  peers : List (Nat × Nat)
  streamingPeer : Option Nat
  stream : Option Nat
  bound : List Nat
deriving DecidableEq, Repr

/-- Observable events of one `removePeer` invocation, in order. -/
inductive REvent where
  | clearedStream : REvent
  | unbound : Nat → REvent
  | receiversStopped : Nat → REvent
  | closed : Nat → REvent
  | loggedAlreadyRemoved : REvent
deriving DecidableEq, Repr

/-- `removeStream()` restricted to the fields modelled here: clears the
    streaming-peer binding and the rendered stream. -/
def removeStream (s : MemberCState) : MemberCState :=
  { s with streamingPeer := none, stream := none }

/-- `removePeer(peer)`: find the map entry holding this peer object; if
    absent, log and return; otherwise clear the stream first when this is
    the streaming peer, then unbind listeners, delete the map entry, stop
    the receiver tracks and close the connection. -/
def removePeer (s : MemberCState) (peer : Nat) : MemberCState × List REvent :=
  match s.peers.find? (fun e => e.2 == peer) with
  | none => (s, [.loggedAlreadyRemoved])
  | some entry =>
    let step1 : MemberCState × List REvent :=
      if s.streamingPeer == some peer then (removeStream s, [.clearedStream])
      else (s, [])
    let s2 : MemberCState := { step1.1 with bound := step1.1.bound.filter (· ≠ peer) }
    let s3 : MemberCState := { s2 with peers := s2.peers.filter (fun e => e.1 ≠ entry.1) }
    (s3, step1.2 ++ [.unbound peer, .receiversStopped peer, .closed peer])

/-! ## Per-address operation serialization (call.js lines 1736-1785)

`establish` runs its body under `F.queueAsync('call-establish-' + addr)`
and `acceptOffer` under `F.queueAsync('call-accept-offer-' + addr)`.
`F.queueAsync` itself is code of this repository not under `src/`. -/

/-- A handshake operation invocation: which of the two serialized
    operations, and for which member address. -/
inductive HandshakeOp where
  | establish : String → HandshakeOp
  | acceptOffer : String → HandshakeOp
deriving DecidableEq, Repr

/-- The member address of an invocation. -/
def HandshakeOp.addr : HandshakeOp → String
  | .establish a => a
  | .acceptOffer a => a

/-- Whether the invocation is an `establish` (as opposed to an
    `acceptOffer`). -/
def HandshakeOp.isEstablish : HandshakeOp → Bool
  | .establish _ => true
  | .acceptOffer _ => false

/-- The `F.queueAsync` bucket key each invocation runs under, exactly as
    built in the source. -/
def queueKey : HandshakeOp → String
  | .establish a => "call-establish-" ++ a
  | .acceptOffer a => "call-accept-offer-" ++ a

/-- Begin/finish events of invocations (referenced by their index into
    the invocation list, which is their arrival order). -/
inductive QEvent where
  | begun : Nat → QEvent
  | finished : Nat → QEvent
deriving DecidableEq, Repr

/-- The invocation index an event refers to. -/
def QEvent.invoc : QEvent → Nat
  | .begun i => i
  | .finished i => i

/-- Position of an event in a trace (the trace length if absent). -/
def evPos (t : List QEvent) (e : QEvent) : Nat := t.indexOf e

/-- A trace is well formed for `n` invocations when every event names an
    invocation, each invocation begins exactly once and finishes exactly
    once, and begins before it finishes. -/
@[reducible] def wellFormedTrace (n : Nat) (t : List QEvent) : Prop :=
  (∀ e ∈ t, e.invoc < n) ∧
  (∀ i, i < n → t.count (QEvent.begun i) = 1 ∧ t.count (QEvent.finished i) = 1 ∧
    evPos t (.begun i) < evPos t (.finished i))

/-- The invocation at index `i` of the arrival list. -/
def opAt (ops : List HandshakeOp) (i : Nat) : HandshakeOp :=
  ops.getD i (.establish "")

/-- Modelled from the spec: the serialization guarantee of
    `F.queueAsync` (§5) — invocations sharing a bucket key form a strict
    FIFO critical section, so a later arrival with the same key begins
    only after every earlier same-key invocation has finished.  Distinct
    keys are unconstrained. -/
@[reducible] def perKeyFIFO (ops : List HandshakeOp) (t : List QEvent) : Prop :=
  ∀ i, i < ops.length → ∀ j, j < ops.length → i < j →
    queueKey (opAt ops i) = queueKey (opAt ops j) →
    evPos t (.finished i) < evPos t (.begun j)

/-- The serialization property the claim asserts: any two handshake
    invocations for the same member address are serialized in arrival
    order, regardless of which of the two operations each is. -/
@[reducible] def perAddrSerialized (ops : List HandshakeOp) (t : List QEvent) : Prop :=
  ∀ i, i < ops.length → ∀ j, j < ops.length → i < j →
    (opAt ops i).addr = (opAt ops j).addr →
    evPos t (.finished i) < evPos t (.begun j)

/-! ## Helper lemmas: candidate queue -/

theorem enqueue_nil (k : String) (c : List Nat) :
    enqueueEarlyICECandidates [] k c = [(k, c)] := rfl

theorem enqueue_cons (e : String × List Nat) (rest : CandQueue) (k : String)
    (c : List Nat) :
    enqueueEarlyICECandidates (e :: rest) k c =
      if e.1 == k then (e.1, e.2 ++ c) :: rest
      else e :: enqueueEarlyICECandidates rest k c := rfl

theorem dmGet_cons (e : String × List Nat) (rest : CandQueue) (k : String) :
    dmGet (e :: rest) k = if e.1 == k then some e.2 else dmGet rest k := rfl

theorem dmErase_cons (e : String × List Nat) (rest : CandQueue) (k : String) :
    dmErase (e :: rest) k = if e.1 == k then rest else e :: dmErase rest k := rfl

theorem dmGet_enqueue_self (q : CandQueue) (k : String) (c : List Nat) :
    dmGet (enqueueEarlyICECandidates q k c) k = some ((dmGet q k).getD [] ++ c) := by
  induction q with
  | nil => simp [enqueue_nil, dmGet_cons, dmGet]
  | cons e rest ih =>
    by_cases h : e.1 == k
    · simp [enqueue_cons, dmGet_cons, h]
    · simp [enqueue_cons, dmGet_cons, h, ih]

theorem dmGet_enqueue_ne (q : CandQueue) (k' k : String) (c : List Nat)
    (h : (k' == k) = false) :
    dmGet (enqueueEarlyICECandidates q k' c) k = dmGet q k := by
  induction q with
  | nil =>
    simp [enqueue_nil, dmGet_cons, h]
  | cons e rest ih =>
    by_cases h2 : e.1 == k'
    · have h3 : (e.1 == k) = false := by
        simp only [beq_iff_eq] at h2
        simp only [beq_eq_false_iff_ne] at h ⊢
        simp [h2, h]
      rw [enqueue_cons, if_pos h2, dmGet_cons, if_neg (by simp_all), dmGet_cons,
        if_neg (by simp_all)]
    · rw [enqueue_cons, if_neg (by simp_all), dmGet_cons, dmGet_cons, ih]

theorem dmGet_foldl_enqueue (ops : List (String × List Nat)) (q : CandQueue)
    (k : String) :
    dmGet (ops.foldl (fun q op => enqueueEarlyICECandidates q op.1 op.2) q) k =
      match dmGet q k with
      | some b => some (b ++ gatherFor ops k)
      | none => if ops.any (fun op => op.1 == k) then some (gatherFor ops k) else none := by
  induction ops generalizing q with
  | nil =>
    cases hq : dmGet q k <;> simp [gatherFor, hq]
  | cons op ops ih =>
    obtain ⟨k1, c1⟩ := op
    simp only [List.foldl_cons]
    rw [ih]
    by_cases h : k1 = k
    · subst h
      rw [dmGet_enqueue_self]
      have hg : gatherFor ((k1, c1) :: ops) k1 = c1 ++ gatherFor ops k1 := by
        simp [gatherFor, List.filter_cons]
      cases hq : dmGet q k1 <;>
        simp [hq, hg, List.any_cons, List.append_assoc, Option.getD]
    · have hb : (k1 == k) = false := by simpa using h
      rw [dmGet_enqueue_ne _ _ _ _ hb]
      have hg : gatherFor ((k1, c1) :: ops) k = gatherFor ops k := by
        simp [gatherFor, List.filter_cons, hb]
      cases hq : dmGet q k
      · simp only [hq, hg, List.any_cons, hb, Bool.false_or]
      · simp only [hq, hg]

theorem dmGet_eq_none_of_not_mem (q : CandQueue) (k : String)
    (h : k ∉ q.map Prod.fst) : dmGet q k = none := by
  induction q with
  | nil => rfl
  | cons e rest ih =>
    simp only [List.map_cons, List.mem_cons, not_or] at h
    rw [dmGet_cons, if_neg (by simp [Ne.symm h.1])]
    exact ih h.2

theorem dmGet_erase_self (q : CandQueue) (k : String)
    (h : (q.map Prod.fst).Nodup) : dmGet (dmErase q k) k = none := by
  induction q with
  | nil => rfl
  | cons e rest ih =>
    simp only [List.map_cons, List.nodup_cons] at h
    by_cases h2 : e.1 == k
    · have hk : k ∉ rest.map Prod.fst := by
        simp only [beq_iff_eq] at h2
        exact h2 ▸ h.1
      rw [dmErase_cons, if_pos h2]
      exact dmGet_eq_none_of_not_mem _ _ hk
    · rw [dmErase_cons, if_neg (by simp_all), dmGet_cons, if_neg (by simp_all)]
      exact ih h.2

theorem mem_keys_enqueue (q : CandQueue) (k : String) (c : List Nat) (x : String)
    (h : x ∈ (enqueueEarlyICECandidates q k c).map Prod.fst) :
    x ∈ q.map Prod.fst ∨ x = k := by
  induction q with
  | nil =>
    rw [enqueue_nil] at h
    simp only [List.map_cons, List.map_nil, List.mem_singleton] at h
    exact Or.inr h
  | cons e rest ih =>
    by_cases h2 : e.1 == k
    · rw [enqueue_cons, if_pos h2] at h
      simp only [List.map_cons, List.mem_cons] at h ⊢
      tauto
    · rw [enqueue_cons, if_neg (by simp_all)] at h
      simp only [List.map_cons, List.mem_cons] at h ⊢
      rcases h with h | h
      · tauto
      · rcases ih h with h3 | h3 <;> tauto

theorem nodup_keys_enqueue (q : CandQueue) (k : String) (c : List Nat)
    (h : (q.map Prod.fst).Nodup) :
    ((enqueueEarlyICECandidates q k c).map Prod.fst).Nodup := by
  induction q with
  | nil => simp [enqueue_nil]
  | cons e rest ih =>
    simp only [List.map_cons, List.nodup_cons] at h
    by_cases h2 : e.1 == k
    · rw [enqueue_cons, if_pos h2]
      simp only [List.map_cons, List.nodup_cons]
      exact ⟨h.1, h.2⟩
    · rw [enqueue_cons, if_neg (by simp_all)]
      simp only [List.map_cons, List.nodup_cons]
      refine ⟨fun hmem => ?_, ih h.2⟩
      rcases mem_keys_enqueue rest k c e.1 hmem with h3 | h3
      · exact h.1 h3
      · simp only [beq_iff_eq] at h2
        exact h2 h3

theorem nodup_keys_runEnqueues (ops : List (String × List Nat)) :
    ((runEnqueues ops).map Prod.fst).Nodup := by
  have general : ∀ (ops : List (String × List Nat)) (q : CandQueue),
      (q.map Prod.fst).Nodup →
      ((ops.foldl (fun q op => enqueueEarlyICECandidates q op.1 op.2) q).map Prod.fst).Nodup := by
    intro ops
    induction ops with
    | nil => intro q h; simpa using h
    | cons op ops ih =>
      intro q h
      exact ih _ (nodup_keys_enqueue q op.1 op.2 h)
  exact general ops [] (by simp)

/-! ## Claim C2: early ICE candidate queue -/

/-- C2: after any sequence of `enqueueEarlyICECandidates` calls starting
    from the empty queue, one `drainEarlyICECandidates` for a peer id
    returns exactly the concatenation, in arrival order, of the batches
    enqueued for that id (`none` when that id was never enqueued — other
    ids' candidates never appear), and an immediately following drain on
    the post-state signals empty. -/
theorem earlyICE_enqueue_drain_fifo (ops : List (String × List Nat)) (peerId : String) :
    (drainEarlyICECandidates (runEnqueues ops) peerId).1 =
      (if ops.any (fun op => op.1 == peerId) then some (gatherFor ops peerId) else none) ∧
    (drainEarlyICECandidates
      (drainEarlyICECandidates (runEnqueues ops) peerId).2 peerId).1 = none := by
  have hget : dmGet (runEnqueues ops) peerId =
      (if ops.any (fun op => op.1 == peerId) then some (gatherFor ops peerId) else none) := by
    have h := dmGet_foldl_enqueue ops [] peerId
    simpa [runEnqueues, dmGet] using h
  by_cases hany : (ops.any (fun op => op.1 == peerId)) = true
  · have hq : dmGet (runEnqueues ops) peerId = some (gatherFor ops peerId) := by
      rw [hget, if_pos hany]
    have herase : dmGet (dmErase (runEnqueues ops) peerId) peerId = none :=
      dmGet_erase_self _ _ (nodup_keys_runEnqueues ops)
    refine ⟨?_, ?_⟩
    · simp [drainEarlyICECandidates, hq, hany]
    · simp [drainEarlyICECandidates, hq, herase]
  · have hq : dmGet (runEnqueues ops) peerId = none := by
      rw [hget, if_neg hany]
    refine ⟨?_, ?_⟩
    · simp [drainEarlyICECandidates, hq, hany]
    · simp [drainEarlyICECandidates, hq]

/-! ## Claim C5: PeerLink staleness -/

/-- C5: `isStale` is true iff the link is not ICE-connected and strictly
    more than 30000 ms have elapsed since the later of the connected-at
    timestamp (when ever set) or the added-at timestamp (under the clock
    invariant that `connected`, stamped after registration, is at least
    `added`); consequently a never-connected link is selected for stale
    removal by the reconciliation pass 31 s after creation and is not
    selected 29 s after creation. -/
theorem isStale_thirty_second_rule (p : PeerMeta) (now t : Nat)
    (hclock : ∀ lc, p.connectedAt = some lc → p.addedAt ≤ lc) :
    (isStale p now = true ↔
      (isConnected p = false ∧
        30000 < now - max p.addedAt (p.connectedAt.getD p.addedAt))) ∧
    staleEligible [⟨"new", none, t⟩] (t + 31000) = [⟨"new", none, t⟩] ∧
    staleEligible [⟨"new", none, t⟩] (t + 29000) = [] := by
  refine ⟨?_, ?_, ?_⟩
  · cases hc : isConnected p
    · cases hca : p.connectedAt with
      | none => simp [isStale, hc, hca, Nat.max_self]
      | some lc =>
        have hle := hclock lc hca
        simp [isStale, hc, hca, Nat.max_eq_right hle]
    · simp [isStale, hc]
  · have hcon : isConnected ⟨"new", none, t⟩ = false := rfl
    simp only [staleEligible, List.filter, isStale, hcon, Bool.false_eq_true, if_false]
    have : 30000 < t + 31000 - t := by omega
    simp [this]
  · have hcon : isConnected ⟨"new", none, t⟩ = false := rfl
    simp only [staleEligible, List.filter, isStale, hcon, Bool.false_eq_true, if_false]
    have : ¬ 30000 < t + 29000 - t := by omega
    simp [this]

/-- Witness for C5 at a concrete link: a never-connected link added at
    time 0, examined at 31000 ms. -/
theorem isStale_thirty_second_rule_witness :
    (isStale ⟨"new", none, 0⟩ 31000 = true ↔
      (isConnected (⟨"new", none, 0⟩ : PeerMeta) = false ∧
        30000 < 31000 - max 0 ((none : Option Nat).getD 0))) ∧
    staleEligible [⟨"new", none, 5⟩] (5 + 31000) = [⟨"new", none, 5⟩] ∧
    staleEligible [⟨"new", none, 5⟩] (5 + 29000) = [] :=
  isStale_thirty_second_rule ⟨"new", none, 0⟩ 31000 5 (fun lc h => by cases h)

/-! ## Claims C9 and C10: removePeer -/

/-- C9: removing the peer that is currently the member's streaming link
    clears the rendered stream and the streaming-peer binding first: the
    post-state has no stream and no streaming peer, and the event order
    is clear-stream, unbind, stop receivers, close. -/
theorem removePeer_streaming_clears_first (s : MemberCState) (peer : Nat)
    (hmem : peer ∈ s.peers.map Prod.snd)
    (hstream : s.streamingPeer = some peer) :
    (removePeer s peer).1.stream = none ∧
    (removePeer s peer).1.streamingPeer = none ∧
    (removePeer s peer).2 =
      [REvent.clearedStream, .unbound peer, .receiversStopped peer, .closed peer] := by
  have hfind : (s.peers.find? (fun e => e.2 == peer)).isSome := by
    rw [List.find?_isSome]
    simp only [List.mem_map] at hmem
    obtain ⟨e, he, hee⟩ := hmem
    exact ⟨e, he, by simp [hee]⟩
  cases hf : s.peers.find? (fun e => e.2 == peer) with
  | none => rw [hf] at hfind; simp at hfind
  | some entry =>
    refine ⟨?_, ?_, ?_⟩ <;>
      simp [removePeer, hf, hstream, removeStream]

/-- C10: removing a peer that is not (or no longer) in the member's peer
    map only logs: the state is returned unchanged and no unbind, stop or
    close event is emitted, so double removal is safe. -/
theorem removePeer_absent_noop (s : MemberCState) (peer : Nat)
    (habsent : ∀ e ∈ s.peers, (e.2 == peer) = false) :
    removePeer s peer = (s, [REvent.loggedAlreadyRemoved]) := by
  have hf : s.peers.find? (fun e => e.2 == peer) = none := by
    rw [List.find?_eq_none]
    simpa using habsent
  simp [removePeer, hf]

/-- Witness for C9: a member with one registered peer (map key 7, peer
    identity 3) currently streaming from it. -/
theorem removePeer_streaming_clears_first_witness :
    (removePeer ⟨[(7, 3)], some 3, some 11, [3]⟩ 3).1.stream = none ∧
    (removePeer ⟨[(7, 3)], some 3, some 11, [3]⟩ 3).1.streamingPeer = none ∧
    (removePeer ⟨[(7, 3)], some 3, some 11, [3]⟩ 3).2 =
      [REvent.clearedStream, .unbound 3, .receiversStopped 3, .closed 3] :=
  removePeer_streaming_clears_first ⟨[(7, 3)], some 3, some 11, [3]⟩ 3
    (by decide) (by decide)

/-- Witness for C10: removing peer identity 9, absent from a map holding
    only peer identity 3. -/
theorem removePeer_absent_noop_witness :
    removePeer ⟨[(7, 3)], some 3, some 11, [3]⟩ 9 =
      (⟨[(7, 3)], some 3, some 11, [3]⟩, [REvent.loggedAlreadyRemoved]) :=
  removePeer_absent_noop ⟨[(7, 3)], some 3, some 11, [3]⟩ 9 (by decide)

/-! ## Claim C8: CallView.join -/

/-- C8: `join` is a no-op while a join is in progress (state untouched,
    nothing sent); otherwise the joining flag is cleared before returning
    whether the send succeeds or fails, the session is marked joined
    exactly on a successful send (and, in the trace, only after the join
    announcement went out), and an audio-only join first removes and
    stops the outgoing video tracks. -/
theorem join_contract (s : JoinCtx) (typ : Option String) (sendOk : Bool) :
    (s.joining = true → join s typ sendOk = ⟨s, [JEvent.logIgnore], false⟩) ∧
    (s.joining = false → (join s typ sendOk).state.joining = false) ∧
    (s.joining = false → (join s typ sendOk).state.joined = (s.joined || sendOk)) ∧
    (s.joining = false → sendOk = true →
      ∃ pre, (join s typ sendOk).trace = pre ++ [JEvent.sendJoin, JEvent.setJoined] ∧
        JEvent.setJoined ∉ pre) ∧
    (s.joining = false → typ = some "audio" →
      (join s typ sendOk).state.videoTracks = [] ∧
      ∀ t ∈ s.videoTracks, t ∈ (join s typ sendOk).state.stoppedTracks) := by
  refine ⟨?_, ?_, ?_, ?_, ?_⟩
  · intro h
    simp [join, h]
  · intro h
    cases sendOk <;> by_cases ha : typ == some "audio" <;> simp [join, h, ha]
  · intro h
    cases hj : s.joined <;> cases sendOk <;> by_cases ha : typ == some "audio" <;>
      simp [join, h, ha, hj]
  · intro h hok
    subst hok
    by_cases ha : typ == some "audio"
    · refine ⟨s.videoTracks.flatMap
        (fun t => [JEvent.removeVideoTrack t, JEvent.stopTrack t]), ?_, ?_⟩
      · simp [join, h, ha]
      · intro hmem
        simp only [List.mem_flatMap] at hmem
        obtain ⟨t, _, hf⟩ := hmem
        simp at hf
    · exact ⟨[], by simp [join, h, ha], by simp⟩
  · intro h ha
    have ha2 : (typ == some "audio") = true := by simp [ha]
    cases sendOk <;>
      simp [join, h, ha2, List.mem_append] <;>
      exact fun t ht => Or.inr ht

/-- Witness for C8: a not-yet-joining session with one video track,
    audio-only join with a successful send. -/
theorem join_contract_witness :
    (join ⟨false, false, none, false, [4], []⟩ (some "audio") true).state.joining = false ∧
    (join ⟨false, false, none, false, [4], []⟩ (some "audio") true).state.joined = (false || true) ∧
    (join ⟨false, false, none, false, [4], []⟩ (some "audio") true).state.videoTracks = [] := by
  have h := join_contract ⟨false, false, none, false, [4], []⟩ (some "audio") true
  exact ⟨h.2.1 rfl, h.2.2.1 rfl, (h.2.2.2.2 rfl rfl).1⟩

/-! ## Claim C7: replaceMembersOutTrack -/

theorem isThrown_map {α β : Type} (f : α → β) (e : Except String α) :
    isThrown (e.map f) = isThrown e := by
  cases e <;> rfl

theorem replacePeersSeq_thrown (track : MediaTrack) (ps : List RTCPeerM) :
    isThrown (replacePeersSeq track ps) = true ↔
      ∃ p ∈ ps, p.transceivers.any (matchesKind track) = false := by
  induction ps with
  | nil => simp [replacePeersSeq, isThrown]
  | cons p ps ih =>
    by_cases hp : p.transceivers.any (matchesKind track)
    · rw [replacePeersSeq]
      simp only [replacePeerTracks, hp, if_true]
      rw [isThrown_map, ih]
      constructor
      · rintro ⟨w, hw, hf⟩
        exact ⟨w, List.mem_cons_of_mem _ hw, hf⟩
      · rintro ⟨w, hw, hf⟩
        rcases List.mem_cons.mp hw with heq | hmem
        · rw [heq] at hf
          rw [hf] at hp
          cases hp
        · exact ⟨w, hmem, hf⟩
    · rw [replacePeersSeq]
      simp only [replacePeerTracks]
      rw [if_neg (by simpa using hp)]
      simp only [isThrown, true_iff]
      exact ⟨p, by simp, by simpa using hp⟩

theorem replacePeersSeq_ok (track : MediaTrack) (ps : List RTCPeerM)
    (h : ∀ p ∈ ps, p.transceivers.any (matchesKind track) = true) :
    replacePeersSeq track ps =
      .ok (ps.map (fun p => ⟨p.transceivers.map (replaceInTransceiver track)⟩)) := by
  induction ps with
  | nil => rfl
  | cons p ps ih =>
    have hp : p.transceivers.any (matchesKind track) = true := h p (by simp)
    rw [replacePeersSeq]
    simp only [replacePeerTracks, hp, if_true]
    rw [ih (fun q hq => h q (by simp [hq]))]
    rfl

/-- C7 counterexample: one member with two peers, the first holding a
    matching live video transceiver, the second holding none.  One
    matching transceiver exists across all peers, yet the operation
    throws — refuting "raises exactly when zero matching transceivers are
    found across all peers of all members". -/
theorem replaceMembersOutTrack_counterexample :
    totalMatches ⟨0, "video"⟩
        [[⟨[⟨false, some "video", none, "recvonly"⟩]⟩, ⟨[]⟩]] = 1 ∧
    isThrown (replaceMembersOutTrack ⟨0, "video"⟩
        [[⟨[⟨false, some "video", none, "recvonly"⟩]⟩, ⟨[]⟩]]) = true := by
  constructor
  · rfl
  · rfl

/-- C7 amended: `replaceMembersOutTrack` raises exactly when some peer of
    some member has zero matching (non-stopped, receiver-kind-equal)
    transceivers; when every peer has at least one match nothing is
    raised, the result maps every transceiver through the replacement,
    and every matching transceiver ends with its sender track replaced by
    the new track and its direction forced to send-receive. -/
theorem replaceMembersOutTrack_amended (track : MediaTrack)
    (views : List (List RTCPeerM)) :
    (isThrown (replaceMembersOutTrack track views) = true ↔
      ∃ view ∈ views, ∃ p ∈ view,
        p.transceivers.any (matchesKind track) = false) ∧
    ((∀ view ∈ views, ∀ p ∈ view, p.transceivers.any (matchesKind track) = true) →
      replaceMembersOutTrack track views =
        .ok (views.map (fun view => view.map
          (fun p => ⟨p.transceivers.map (replaceInTransceiver track)⟩)))) ∧
    (∀ t : Transceiver, matchesKind track t = true →
      (replaceInTransceiver track t).senderTrack = some track ∧
      (replaceInTransceiver track t).direction = "sendrecv") := by
  refine ⟨?_, ?_, ?_⟩
  · induction views with
    | nil => simp [replaceMembersOutTrack, isThrown]
    | cons view views ih =>
      rw [replaceMembersOutTrack]
      cases hv : replacePeersSeq track view with
      | error e =>
        have : isThrown (replacePeersSeq track view) = true := by
          rw [hv]; rfl
        rw [replacePeersSeq_thrown] at this
        simp only [isThrown, true_iff]
        exact ⟨view, by simp, this⟩
      | ok view2 =>
        rw [isThrown_map, ih]
        have hnv : ¬ ∃ p ∈ view, p.transceivers.any (matchesKind track) = false := by
          rw [← replacePeersSeq_thrown track view]
          rw [hv]
          simp [isThrown]
        constructor
        · intro ⟨w, hw, hp⟩
          exact ⟨w, by simp [hw], hp⟩
        · intro ⟨w, hw, hp⟩
          rcases (List.mem_cons.mp hw) with h | h
          · exact absurd (h ▸ hp) hnv
          · exact ⟨w, h, hp⟩
  · intro h
    induction views with
    | nil => rfl
    | cons view views ih =>
      rw [replaceMembersOutTrack,
        replacePeersSeq_ok track view (fun p hp => h view (by simp) p hp),
        ih (fun w hw p hp => h w (by simp [hw]) p hp)]
      rfl
  · intro t ht
    simp [replaceInTransceiver, ht]

/-- Witness for C7 amended: one member with a single peer holding one
    matching transceiver; no peer lacks a match, so the pass succeeds and
    rewrites the transceiver. -/
theorem replaceMembersOutTrack_amended_witness :
    replaceMembersOutTrack ⟨0, "video"⟩
        [[⟨[⟨false, some "video", none, "recvonly"⟩]⟩]] =
      .ok [[⟨[⟨false, some "video", some ⟨0, "video"⟩, "sendrecv"⟩]⟩]] := by
  have h := (replaceMembersOutTrack_amended ⟨0, "video"⟩
    [[⟨[⟨false, some "video", none, "recvonly"⟩]⟩]]).2.1 (by decide)
  rw [h]
  rfl

/-! ## Claim C1: per-address serialization of establish / acceptOffer -/

/-- C1 counterexample: two invocations for the same address `"a"` — an
    `establish` (arrival 0) and an `acceptOffer` (arrival 1) — and the
    interleaved trace begin 0, begin 1, finish 0, finish 1.  The trace is
    well formed and satisfies the per-key FIFO discipline of
    `F.queueAsync` (the two invocations use distinct bucket keys,
    `call-establish-a` and `call-accept-offer-a`), yet invocation 1
    begins before the earlier in-flight invocation 0 for the same address
    has completed — refuting the claimed mutual exclusion between the two
    operations. -/
theorem establish_accept_not_mutually_exclusive :
    wellFormedTrace 2 [QEvent.begun 0, .begun 1, .finished 0, .finished 1] ∧
    perKeyFIFO [HandshakeOp.establish "a", .acceptOffer "a"]
      [QEvent.begun 0, .begun 1, .finished 0, .finished 1] ∧
    ¬ perAddrSerialized [HandshakeOp.establish "a", .acceptOffer "a"]
      [QEvent.begun 0, .begun 1, .finished 0, .finished 1] := by
  refine ⟨?_, ?_, ?_⟩
  · constructor
    · decide
    · decide
  · decide
  · decide

/-- C1 amended: under the per-key FIFO discipline of `F.queueAsync`,
    handshake invocations of the same operation (`establish` with
    `establish`, `acceptOffer` with `acceptOffer`) for the same member
    address are strictly serialized in arrival order — each of the two
    operations is mutually exclusive with itself per address — but the
    two operations use distinct queue keys for every address, so an
    `establish` and an `acceptOffer` for the same address are not
    serialized against each other. -/
theorem handshake_same_op_serialized (ops : List HandshakeOp) (t : List QEvent)
    (_hw : wellFormedTrace ops.length t) (hq : perKeyFIFO ops t) :
    (∀ i, i < ops.length → ∀ j, j < ops.length → i < j →
      (opAt ops i).isEstablish = (opAt ops j).isEstablish →
      (opAt ops i).addr = (opAt ops j).addr →
      evPos t (.finished i) < evPos t (.begun j)) ∧
    (∀ addr, queueKey (.establish addr) ≠ queueKey (.acceptOffer addr)) := by
  refine ⟨?_, ?_⟩
  · intro i hi j hj hij hkind haddr
    apply hq i hi j hj hij
    cases hoi : opAt ops i <;> cases hoj : opAt ops j <;>
      simp_all [HandshakeOp.isEstablish, HandshakeOp.addr, queueKey]
  · intro addr h
    have hl := congrArg String.length h
    simp only [queueKey, String.length_append] at hl
    have h1 : ("call-establish-" : String).length = 15 := rfl
    have h2 : ("call-accept-offer-" : String).length = 18 := rfl
    omega

/-- Witness for C1 amended: two `establish` invocations for the same
    address with the serialized trace begin 0, finish 0, begin 1,
    finish 1. -/
theorem handshake_same_op_serialized_witness :
    (∀ i, i < ([HandshakeOp.establish "a", .establish "a"] : List HandshakeOp).length →
      ∀ j, j < ([HandshakeOp.establish "a", .establish "a"] : List HandshakeOp).length →
      i < j →
      (opAt [HandshakeOp.establish "a", .establish "a"] i).isEstablish =
        (opAt [HandshakeOp.establish "a", .establish "a"] j).isEstablish →
      (opAt [HandshakeOp.establish "a", .establish "a"] i).addr =
        (opAt [HandshakeOp.establish "a", .establish "a"] j).addr →
      evPos [QEvent.begun 0, .finished 0, .begun 1, .finished 1] (.finished i) <
        evPos [QEvent.begun 0, .finished 0, .begun 1, .finished 1] (.begun j)) ∧
    (∀ addr, queueKey (.establish addr) ≠ queueKey (.acceptOffer addr)) :=
  handshake_same_op_serialized [HandshakeOp.establish "a", .establish "a"]
    [QEvent.begun 0, .finished 0, .begun 1, .finished 1]
    ⟨by decide, by decide⟩ (by decide)

/-! ## Claim C6: presenter selection -/

theorem presentableFold_stays (v : MemberView) (l : List MemberView)
    (hall : ∀ w ∈ l, w = v ∨ w.soundRMS + 1/100 ≤ v.soundRMS) :
    presentableFold (some v) l = some v := by
  induction l with
  | nil => rfl
  | cons w l ih =>
    have hw := hall w (by simp)
    have hcond : ¬ ((1 : ℚ)/100 ≤ w.soundRMS - v.soundRMS) := by
      rcases hw with h | h
      · rw [h]
        norm_num
      · intro hc
        linarith
    rw [presentableFold, if_neg hcond]
    exact ih (fun u hu => hall u (by simp [hu]))

theorem presentableFold_keeps (l : List MemberView) (v : MemberView) (init : Option MemberView)
    (hall : ∀ w ∈ l, w = v ∨ w.soundRMS + 1/100 ≤ v.soundRMS)
    (hinit : init = none ∨
      ∃ u, init = some u ∧ (u = v ∨ u.soundRMS + 1/100 ≤ v.soundRMS)) :
    presentableFold init l = none ∨
      ∃ u, presentableFold init l = some u ∧
        (u = v ∨ u.soundRMS + 1/100 ≤ v.soundRMS) := by
  induction l generalizing init with
  | nil =>
    rcases hinit with h | ⟨u, hu, hp⟩
    · exact Or.inl h
    · exact Or.inr ⟨u, hu, hp⟩
  | cons w l ih =>
    have hw := hall w (by simp)
    have hrest : ∀ u ∈ l, u = v ∨ u.soundRMS + 1/100 ≤ v.soundRMS :=
      fun u hu => hall u (by simp [hu])
    rcases hinit with h | ⟨u, hu, hp⟩
    · rw [h, presentableFold]
      exact ih (some w) hrest (Or.inr ⟨w, rfl, hw⟩)
    · rw [hu, presentableFold]
      by_cases hc : (1 : ℚ)/100 ≤ w.soundRMS - u.soundRMS
      · rw [if_pos hc]
        exact ih (some w) hrest (Or.inr ⟨w, rfl, hw⟩)
      · rw [if_neg hc]
        exact ih (some u) hrest (Or.inr ⟨u, rfl, hp⟩)

theorem presentableFold_append (init : Option MemberView) (xs ys : List MemberView) :
    presentableFold init (xs ++ ys) = presentableFold (presentableFold init xs) ys := by
  induction xs generalizing init with
  | nil => rfl
  | cons x xs ih =>
    cases init with
    | none =>
      rw [List.cons_append, presentableFold, presentableFold, ih]
    | some w =>
      rw [List.cons_append, presentableFold, presentableFold]
      by_cases hc : (1 : ℚ)/100 ≤ x.soundRMS - w.soundRMS
      · rw [if_pos hc, if_pos hc, ih]
      · rw [if_neg hc, if_neg hc, ih]

theorem presentableFold_select (init : Option MemberView) (l : List MemberView)
    (v : MemberView) (hmem : v ∈ l)
    (hall : ∀ w ∈ l, w = v ∨ w.soundRMS + 1/100 ≤ v.soundRMS)
    (hinit : init = none ∨
      ∃ u, init = some u ∧ (u = v ∨ u.soundRMS + 1/100 ≤ v.soundRMS)) :
    presentableFold init l = some v := by
  obtain ⟨l1, l2, rfl⟩ := List.append_of_mem hmem
  have hl1 : ∀ w ∈ l1, w = v ∨ w.soundRMS + 1/100 ≤ v.soundRMS :=
    fun w hw => hall w (by simp [hw])
  have hl2 : ∀ w ∈ l2, w = v ∨ w.soundRMS + 1/100 ≤ v.soundRMS :=
    fun w hw => hall w (by simp [hw])
  rw [presentableFold_append]
  rcases presentableFold_keeps l1 v init hl1 hinit with hmid | ⟨u, hmid, hp⟩
  · rw [hmid, presentableFold]
    exact presentableFold_stays v l2 hl2
  · rw [hmid, presentableFold]
    rcases hp with hp | hp
    · rw [hp, if_neg (by norm_num)]
      exact presentableFold_stays v l2 hl2
    · rw [if_pos (by linarith)]
      exact presentableFold_stays v l2 hl2

theorem presentableFold_incumbent (inc : MemberView) (l : List MemberView)
    (hall : ∀ w ∈ l, w.soundRMS < inc.soundRMS + 1/100) :
    presentableFold (some inc) l = some inc := by
  induction l with
  | nil => rfl
  | cons w l ih =>
    have hw := hall w (by simp)
    rw [presentableFold, if_neg (by intro hc; linarith)]
    exact ih (fun u hu => hall u (by simp [hu]))

/-- C6: presenter selection with no pinned member: with zero remote
    member views the local (outgoing) view is returned; with exactly one
    remote it is always returned; with two or more, a remote whose
    smoothed RMS loudness beats every other candidate (the incumbent
    included) by at least the 0.01 margin is selected, and when every
    remote is within 0.01 of the incumbent presenter the incumbent
    remains selected. -/
theorem getMostPresentable_policy (outV presenting v : MemberView)
    (remotes : List MemberView) :
    (getMostPresentableMemberView outV presenting [] = outV) ∧
    (getMostPresentableMemberView outV presenting [v] = v) ∧
    (2 ≤ remotes.length → v ∈ remotes →
      (presenting = outV ∨ presenting = v ∨
        presenting.soundRMS + 1/100 ≤ v.soundRMS) →
      (∀ w ∈ remotes, w = v ∨ w.soundRMS + 1/100 ≤ v.soundRMS) →
      getMostPresentableMemberView outV presenting remotes = v) ∧
    (2 ≤ remotes.length → presenting ≠ outV →
      (∀ w ∈ remotes, w.soundRMS < presenting.soundRMS + 1/100) →
      getMostPresentableMemberView outV presenting remotes = presenting) := by
  refine ⟨rfl, rfl, ?_, ?_⟩
  · intro hlen hmem hpres hall
    obtain ⟨a, b, t, rfl⟩ : ∃ a b t, remotes = a :: b :: t := by
      rcases remotes with _ | ⟨a, _ | ⟨b, t⟩⟩
      · simp at hlen
      · simp at hlen
      · exact ⟨a, b, t, rfl⟩
    rw [getMostPresentableMemberView]
    by_cases hp : presenting = outV
    · rw [if_neg (by simp [hp])]
      rw [presentableFold_select none (a :: b :: t) v hmem hall (Or.inl rfl)]
      rfl
    · rw [if_pos hp]
      have hinit : (some presenting : Option MemberView) = none ∨
          ∃ u, (some presenting : Option MemberView) = some u ∧
            (u = v ∨ u.soundRMS + 1/100 ≤ v.soundRMS) := by
        rcases hpres with h | h | h
        · exact absurd h hp
        · exact Or.inr ⟨presenting, rfl, Or.inl h⟩
        · exact Or.inr ⟨presenting, rfl, Or.inr h⟩
      rw [presentableFold_select (some presenting) (a :: b :: t) v hmem hall hinit]
      rfl
  · intro hlen hp hall
    obtain ⟨a, b, t, rfl⟩ : ∃ a b t, remotes = a :: b :: t := by
      rcases remotes with _ | ⟨a, _ | ⟨b, t⟩⟩
      · simp at hlen
      · simp at hlen
      · exact ⟨a, b, t, rfl⟩
    rw [getMostPresentableMemberView, if_pos hp,
      presentableFold_incumbent presenting (a :: b :: t) hall]
    rfl

/-- Witness for C6: local view id 0, three remotes with smoothed
    loudness 0.10, 0.12 and 0.50, incumbent the 0.10 member: the 0.50
    member is selected. -/
theorem getMostPresentable_policy_witness :
    getMostPresentableMemberView ⟨0, 0⟩ ⟨1, 1/10⟩
      [⟨1, 1/10⟩, ⟨2, 12/100⟩, ⟨3, 1/2⟩] = ⟨3, 1/2⟩ :=
  (getMostPresentable_policy ⟨0, 0⟩ ⟨1, 1/10⟩ ⟨3, 1/2⟩
      [⟨1, 1/10⟩, ⟨2, 12/100⟩, ⟨3, 1/2⟩]).2.2.1
    (by norm_num)
    (by norm_num)
    (by right; right; norm_num)
    (by
      intro w hw
      simp only [List.mem_cons, List.not_mem_nil, or_false] at hw
      rcases hw with h | h | h
      · right; rw [h]; norm_num
      · right; rw [h]; norm_num
      · left; exact h)

/-! ## Helper lemmas: decimal rendering and parsing -/

theorem digitToNat_digitChar (d : Nat) (hd : d < 10) :
    digitToNat (digitChar d) = some d := by
  interval_cases d <;> decide

theorem digitChar_ne_colon (d : Nat) (hd : d < 10) :
    (digitChar d == ':') = false := by
  interval_cases d <;> decide

theorem natDigits_ne_nil (n : Nat) : natDigits n ≠ [] := by
  rw [natDigits]
  split <;> simp

theorem mem_natDigits (n : Nat) (c : Char) (hc : c ∈ natDigits n) :
    ∃ d, d < 10 ∧ c = digitChar d := by
  induction n using Nat.strong_induction_on with
  | _ n ih =>
    rw [natDigits] at hc
    split at hc
    next h => exact ⟨n, h, by simpa using hc⟩
    next h =>
      rcases List.mem_append.mp hc with h2 | h2
      · exact ih (n / 10) (Nat.div_lt_self (by omega) (by omega)) h2
      · exact ⟨n % 10, Nat.mod_lt _ (by omega), by simpa using h2⟩

theorem natDigits_no_colon (n : Nat) (c : Char) (hc : c ∈ natDigits n) :
    (c == ':') = false := by
  obtain ⟨d, hd, rfl⟩ := mem_natDigits n c hc
  exact digitChar_ne_colon d hd

theorem charsToNatAux_append (acc : Nat) (xs ys : List Char) :
    charsToNatAux acc (xs ++ ys) =
      match charsToNatAux acc xs with
      | some a => charsToNatAux a ys
      | none => none := by
  induction xs generalizing acc with
  | nil => rfl
  | cons c xs ih =>
    cases hd : digitToNat c with
    | none => simp [charsToNatAux, hd]
    | some d => simp [charsToNatAux, hd, ih]

theorem charsToNatAux_natDigits (n : Nat) : ∀ acc,
    charsToNatAux acc (natDigits n) =
      some (acc * 10 ^ (natDigits n).length + n) := by
  induction n using Nat.strong_induction_on with
  | _ n ih =>
    intro acc
    rw [natDigits]
    split
    next h =>
      simp only [charsToNatAux, digitToNat_digitChar n h, List.length_singleton, pow_one]
    next h =>
      rw [charsToNatAux_append,
        ih (n / 10) (Nat.div_lt_self (by omega) (by omega)) acc]
      simp only [charsToNatAux, digitToNat_digitChar (n % 10) (Nat.mod_lt _ (by omega)),
        List.length_append, List.length_singleton]
      have harith : ∀ L q r : Nat, 10 * q + r = n →
          (acc * 10 ^ L + q) * 10 + r = acc * 10 ^ (L + 1) + n := by
        intro L q r hqr
        rw [pow_succ, ← hqr]
        ring
      rw [harith _ _ _ (Nat.div_add_mod n 10)]

theorem charsToNat_natDigits (n : Nat) : charsToNat (natDigits n) = some n := by
  have h := charsToNatAux_natDigits n 0
  cases hd : natDigits n with
  | nil => exact absurd hd (natDigits_ne_nil n)
  | cons c t =>
    rw [charsToNat, ← hd, h]
    simp

/-! ## Helper lemmas: colon splitting -/

theorem splitOnColon_ne_nil (l : Line) : splitOnColon l ≠ [] := by
  cases l with
  | nil => simp [splitOnColon]
  | cons c rest =>
    rw [splitOnColon]
    cases h : splitOnColon rest with
    | nil => simp
    | cons g gs => by_cases hc : (c == ':') = true <;> simp [hc]

theorem splitOnColon_no_colon (l : Line) (h : ∀ c ∈ l, (c == ':') = false) :
    splitOnColon l = [l] := by
  induction l with
  | nil => rfl
  | cons c rest ih =>
    rw [splitOnColon, ih (fun x hx => h x (by simp [hx]))]
    simp [h c (by simp)]

theorem splitOnColon_mid (xs ys : Line) (h : ∀ c ∈ xs, (c == ':') = false) :
    splitOnColon (xs ++ ':' :: ys) = xs :: splitOnColon ys := by
  induction xs with
  | nil =>
    obtain ⟨g, gs, hg⟩ : ∃ g gs, splitOnColon ys = g :: gs := by
      cases hy : splitOnColon ys with
      | nil => exact absurd hy (splitOnColon_ne_nil ys)
      | cons g gs => exact ⟨g, gs, rfl⟩
    rw [List.nil_append, splitOnColon, hg]
    simp
  | cons c xs ih =>
    have hc := h c (by simp)
    rw [List.cons_append, splitOnColon, ih (fun x hx => h x (by simp [hx]))]
    simp [hc]

/-! ## Helper lemmas: inserted bitrate lines -/

theorem tias_b (n : Nat) : startsWithL (cs "b=") (tiasLine n) = true := rfl

theorem tias_not_AS (n : Nat) : startsWithL (cs "b=AS") (tiasLine n) = false := rfl

theorem tias_TIAS (n : Nat) : startsWithL (cs "b=TIAS") (tiasLine n) = true := rfl

theorem tias_not_m (n : Nat) : startsWithL (cs "m=") (tiasLine n) = false := rfl

theorem tias_not_c (n : Nat) : startsWithL (cs "c=IN") (tiasLine n) = false := rfl

theorem as_b (n : Nat) : startsWithL (cs "b=") (asLine n) = true := rfl

theorem as_AS (n : Nat) : startsWithL (cs "b=AS") (asLine n) = true := rfl

theorem as_not_TIAS (n : Nat) : startsWithL (cs "b=TIAS") (asLine n) = false := rfl

theorem as_not_m (n : Nat) : startsWithL (cs "m=") (asLine n) = false := rfl

theorem as_not_c (n : Nat) : startsWithL (cs "c=IN") (asLine n) = false := rfl

theorem splitOnColon_tiasLine (n : Nat) :
    splitOnColon (tiasLine n) = [cs "b=TIAS", natDigits n] := by
  have hshape : tiasLine n = cs "b=TIAS" ++ ':' :: natDigits n := rfl
  rw [hshape, splitOnColon_mid _ _ (by decide),
    splitOnColon_no_colon _ (natDigits_no_colon n)]

theorem bLineBps_tiasLine (n : Nat) : bLineBps (tiasLine n) = some n := by
  rw [bLineBps]
  simp only [tias_not_AS, Bool.false_eq_true, if_false, splitOnColon_tiasLine]
  simp [charsToNat_natDigits n]

/-! ## Helper lemmas: startsWithL -/

theorem startsWithL_append_left (p q l : Line)
    (h : startsWithL (p ++ q) l = true) : startsWithL p l = true := by
  induction p generalizing l with
  | nil => rfl
  | cons c p ih =>
    cases l with
    | nil => exact absurd h (by simp [startsWithL])
    | cons x t =>
      rw [List.cons_append, startsWithL] at h
      simp only [Bool.and_eq_true, beq_iff_eq] at h
      rw [startsWithL]
      simp only [Bool.and_eq_true, beq_iff_eq]
      exact ⟨h.1, ih t h.2⟩

theorem startsWithL_ext (p q l : Line)
    (h : startsWithL p l = false) : startsWithL (p ++ q) l = false := by
  cases hpq : startsWithL (p ++ q) l
  · rfl
  · exact absurd (startsWithL_append_left p q l hpq) (by simp [h])

theorem startsWithL_head (c : Char) (p l : Line)
    (h : startsWithL (c :: p) l = true) : ∃ t, l = c :: t := by
  cases l with
  | nil => exact absurd h (by simp [startsWithL])
  | cons x t =>
    rw [startsWithL] at h
    simp only [Bool.and_eq_true, beq_iff_eq] at h
    exact ⟨t, by rw [h.1]⟩

theorem not_b_of_c (l : Line) (h : startsWithL (cs "c=IN") l = true) :
    startsWithL (cs "b=") l = false := by
  obtain ⟨t, rfl⟩ := startsWithL_head 'c' (cs "=IN") l h
  rfl

theorem not_bTIAS_of_not_b (l : Line) (h : startsWithL (cs "b=") l = false) :
    startsWithL (cs "b=TIAS") l = false := startsWithL_ext (cs "b=") (cs "TIAS") l h

theorem not_bAS_of_not_b (l : Line) (h : startsWithL (cs "b=") l = false) :
    startsWithL (cs "b=AS") l = false := startsWithL_ext (cs "b=") (cs "AS") l h

/-! ## Helper lemmas: the scan, insert and split loops -/

theorem scanB_skip (bw : JSNum) (l : Line) (rest : List Line)
    (hb : startsWithL (cs "b=") l = false)
    (hm : startsWithL (cs "m=") l = false) :
    scanB bw (l :: rest) = ((scanB bw rest).1, l :: (scanB bw rest).2) := by
  rw [scanB, if_neg (by simp [hb]), if_neg (by simp [hm])]

theorem scanB_stop (bw : JSNum) (l : Line) (rest : List Line)
    (hb : startsWithL (cs "b=") l = false)
    (hm : startsWithL (cs "m=") l = true) :
    scanB bw (l :: rest) = (bw, l :: rest) := by
  rw [scanB, if_neg (by simp [hb]), if_pos hm]

theorem scanB_b_nil (bw : JSNum) (l : Line)
    (hb : startsWithL (cs "b=") l = true) :
    scanB bw [l] = (updateBW bw (bLineBps l), []) := by
  rw [scanB, if_pos hb]

theorem scanB_b_cons (bw : JSNum) (l skip : Line) (rest2 : List Line)
    (hb : startsWithL (cs "b=") l = true) :
    scanB bw (l :: skip :: rest2) =
      ((scanB (updateBW bw (bLineBps l)) rest2).1,
        skip :: (scanB (updateBW bw (bLineBps l)) rest2).2) := by
  rw [scanB, if_pos hb]

theorem scanB_no_b (bw : JSNum) (ls : List Line)
    (h : ∀ l ∈ ls, startsWithL (cs "b=") l = false) :
    scanB bw ls = (bw, ls) := by
  induction ls with
  | nil => rfl
  | cons l rest ih =>
    have hb := h l (by simp)
    by_cases hm : startsWithL (cs "m=") l = true
    · rw [scanB_stop bw l rest hb hm]
    · rw [scanB_skip bw l rest hb (by simpa using hm),
        ih (fun x hx => h x (by simp [hx]))]

theorem scanB_pass (bw : JSNum) (xs ls : List Line)
    (h : ∀ l ∈ xs, startsWithL (cs "b=") l = false ∧
      startsWithL (cs "m=") l = false) :
    scanB bw (xs ++ ls) = ((scanB bw ls).1, xs ++ (scanB bw ls).2) := by
  induction xs with
  | nil => rfl
  | cons x xs ih =>
    have hx := h x (by simp)
    rw [List.cons_append, scanB_skip bw x (xs ++ ls) hx.1 hx.2,
      ih (fun l hl => h l (by simp [hl]))]
    rfl

theorem insertBW_cons_c (n : Nat) (l : Line) (rest : List Line)
    (hc : startsWithL (cs "c=IN") l = true) :
    insertBW n (l :: rest) = l :: tiasLine n :: asLine n :: rest := by
  rw [insertBW, if_pos hc]

theorem insertBW_cons_not_c (n : Nat) (l : Line) (rest : List Line)
    (hc : startsWithL (cs "c=IN") l = false) :
    insertBW n (l :: rest) = l :: insertBW n rest := by
  rw [insertBW, if_neg (by simp [hc])]

theorem insertBW_no_c (n : Nat) (ls : List Line)
    (h : ∀ l ∈ ls, startsWithL (cs "c=IN") l = false) :
    insertBW n ls = ls := by
  induction ls with
  | nil => rfl
  | cons l rest ih =>
    rw [insertBW_cons_not_c n l rest (h l (by simp)),
      ih (fun x hx => h x (by simp [hx]))]

theorem insertBW_pass (n : Nat) (xs ls : List Line)
    (h : ∀ l ∈ xs, startsWithL (cs "c=IN") l = false) :
    insertBW n (xs ++ ls) = xs ++ insertBW n ls := by
  induction xs with
  | nil => rfl
  | cons x xs ih =>
    rw [List.cons_append, insertBW_cons_not_c n x (xs ++ ls) (h x (by simp)),
      ih (fun l hl => h l (by simp [hl]))]
    rfl

theorem splitAtVideo_shape (pre : List Line) (v : Line) (rest : List Line)
    (hpre : ∀ l ∈ pre, startsWithL (cs "m=video") l = false)
    (hv : startsWithL (cs "m=video") v = true) :
    splitAtVideo (pre ++ v :: rest) = some (pre, v, rest) := by
  induction pre with
  | nil =>
    rw [List.nil_append, splitAtVideo, if_pos hv]
  | cons p pre ih =>
    rw [List.cons_append, splitAtVideo,
      if_neg (by simp [hpre p (by simp)]), ih (fun l hl => hpre l (by simp [hl]))]

theorem takeWhileAppend (p : Line → Bool) (xs ys : List Line)
    (h : ∀ x ∈ xs, p x = true) :
    (xs ++ ys).takeWhile p = xs ++ ys.takeWhile p := by
  induction xs with
  | nil => rfl
  | cons x xs ih =>
    rw [List.cons_append, List.takeWhile_cons, h x (by simp),
      ih (fun l hl => h l (by simp [hl]))]
    rfl

theorem findFirstAppend (p : Line → Bool) (xs ys : List Line)
    (h : ∀ x ∈ xs, p x = false) :
    (xs ++ ys).find? p = ys.find? p := by
  induction xs with
  | nil => rfl
  | cons x xs ih =>
    rw [List.cons_append, List.find?_cons_of_neg _ (by simp [h x (by simp)]),
      ih (fun l hl => h l (by simp [hl]))]

theorem splitFirst (p : Line → Bool) (ls : List Line) (hany : ls.any p = true) :
    ∃ a x b, ls = a ++ x :: b ∧ p x = true ∧ ∀ y ∈ a, p y = false := by
  induction ls with
  | nil => simp at hany
  | cons l rest ih =>
    by_cases hl : p l = true
    · exact ⟨[], l, rest, rfl, hl, by simp⟩
    · have hrest : rest.any p = true := by
        rcases List.any_eq_true.mp hany with ⟨x, hx, hpx⟩
        rcases List.mem_cons.mp hx with rfl | hx2
        · exact absurd hpx hl
        · exact List.any_eq_true.mpr ⟨x, hx2, hpx⟩
      obtain ⟨a, x, b, hsplit, hpx, hna⟩ := ih hrest
      refine ⟨l :: a, x, b, by rw [hsplit]; rfl, hpx, ?_⟩
      intro y hy
      rcases List.mem_cons.mp hy with rfl | hy2
      · simpa using hl
      · exact hna y hy2

theorem updateBW_self (C : Nat) (h : C ≠ 0) :
    updateBW (.num C) (some C) = .num C := by
  delta updateBW
  simp [JSNum.truthy, h]

theorem updateBW_lower (B C : Nat) (hC : C ≠ 0) (hBC : B < C) :
    updateBW (.num C) (some B) = .num B := by
  delta updateBW
  simp [JSNum.truthy, hC, hBC]

theorem truthy_num (C : Nat) (h : C ≠ 0) : (JSNum.num C).truthy = true := by
  simp [JSNum.truthy, h]

theorem limitLines_eq (bw : JSNum) (pre : List Line) (v : Line) (rest : List Line)
    (hpre : ∀ l ∈ pre, startsWithL (cs "m=video") l = false)
    (hv : startsWithL (cs "m=video") v = true) :
    limitLines bw (pre ++ v :: rest) =
      pre ++ v :: (if (scanB bw rest).1.truthy
        then insertBW (scanB bw rest).1.val (scanB bw rest).2
        else (scanB bw rest).2) := by
  rw [limitLines, splitAtVideo_shape pre v rest hpre hv]

theorem videoSection_eq (pre : List Line) (v : Line) (rest : List Line)
    (hpre : ∀ l ∈ pre, startsWithL (cs "m=video") l = false)
    (hv : startsWithL (cs "m=video") v = true) :
    videoSection (pre ++ v :: rest) =
      rest.takeWhile (fun l => !startsWithL (cs "m=") l) := by
  rw [videoSection, splitAtVideo_shape pre v rest hpre hv]

/-! ## Claim C3: BandwidthShaper never raises bandwidth -/

/-- C3 counterexample: a description whose single video section declares
    `b=TIAS:500000` but holds no connection-data (`c=IN`) line.  With a
    2,000,000 bps ceiling the declared 500,000 bps wins the scan, the
    `b=` line is removed, but the insertion loop finds no `c=IN` line and
    inserts nothing — the output declares no bitrate at all instead of
    retaining 500,000 bps, so the claim's universally quantified
    statement fails. -/
theorem limitSDPBandwidth_drops_declared :
    effectiveVideoBitrate [cs "m=video 9", cs "b=TIAS:500000"] = some 500000 ∧
    (500000 : Nat) < 2000000 ∧
    effectiveVideoBitrate
      (limitSDPBandwidth ⟨cs "offer", [cs "m=video 9", cs "b=TIAS:500000"]⟩
        (.num 2000000)).sdp = none := by
  refine ⟨by decide, by decide, by decide⟩

/-- C3 amended: for a session description with a single video section
    whose sole `b=` line (of the whole description) declares `B` bps
    (`b=TIAS` literal, `b=AS` times 1024) with `0 < B < C`, and whose
    video section also contains a connection-data `c=IN` line,
    `limitSDPBandwidth` with ceiling `C` produces a description whose
    effective video bitrate is exactly `B` — the lower declared value is
    never raised toward the ceiling. -/
theorem limitSDPBandwidth_never_raises (ty : Line) (pre : List Line) (v : Line)
    (b1 : List Line) (bl : Line) (b2 post : List Line) (B C : Nat)
    (hv : startsWithL (cs "m=video") v = true)
    (hpre : ∀ l ∈ pre, startsWithL (cs "m=video") l = false)
    (hm : ∀ l ∈ b1 ++ bl :: b2, startsWithL (cs "m=") l = false)
    (hb1 : ∀ l ∈ b1, startsWithL (cs "b=") l = false)
    (hb2 : ∀ l ∈ b2, startsWithL (cs "b=") l = false)
    (hpost : ∀ l ∈ post, startsWithL (cs "b=") l = false)
    (hbl : startsWithL (cs "b=") bl = true)
    (hBval : bLineBps bl = some B)
    (hcin : (b1 ++ b2).any (fun l => startsWithL (cs "c=IN") l) = true)
    (hB0 : 0 < B) (hBC : B < C) :
    effectiveVideoBitrate
      (limitSDPBandwidth ⟨ty, pre ++ v :: (b1 ++ bl :: (b2 ++ post))⟩
        (.num C)).sdp = some B := by
  have hstep1 : (limitSDPBandwidth ⟨ty, pre ++ v :: (b1 ++ bl :: (b2 ++ post))⟩
      (.num C)).sdp = limitLines (.num C) (pre ++ v :: (b1 ++ bl :: (b2 ++ post))) := rfl
  rw [hstep1, limitLines_eq _ _ _ _ hpre hv]
  have hinner : scanB (.num C) (bl :: (b2 ++ post)) = (JSNum.num B, b2 ++ post) := by
    cases htail : b2 ++ post with
    | nil =>
      rw [scanB_b_nil _ bl hbl, hBval, updateBW_lower B C (by omega) hBC]
    | cons skip rest2 =>
      have hrest2 : ∀ l ∈ rest2, startsWithL (cs "b=") l = false := by
        intro l hl
        have hl2 : l ∈ b2 ++ post := by rw [htail]; simp [hl]
        rcases List.mem_append.mp hl2 with h | h
        · exact hb2 l h
        · exact hpost l h
      rw [scanB_b_cons _ bl skip rest2 hbl, hBval,
        updateBW_lower B C (by omega) hBC, scanB_no_b _ rest2 hrest2]
  have hscan : scanB (.num C) (b1 ++ bl :: (b2 ++ post)) =
      (JSNum.num B, b1 ++ (b2 ++ post)) := by
    rw [scanB_pass _ b1 _ (fun l hl => ⟨hb1 l hl, hm l (by simp [hl])⟩), hinner]
  rw [hscan]
  simp only [truthy_num B (by omega), if_true, JSNum.val]
  obtain ⟨a, x, cb, hsplit, hx, hna⟩ :=
    splitFirst (fun l => startsWithL (cs "c=IN") l) (b1 ++ b2) hcin
  have hmem_b12 : ∀ l ∈ a ++ x :: cb, l ∈ b1 ++ b2 := by
    intro l hl
    rw [hsplit]
    exact hl
  have hre : b1 ++ (b2 ++ post) = a ++ x :: (cb ++ post) := by
    rw [← List.append_assoc, hsplit]
    simp
  rw [hre, insertBW_pass B a _ hna, insertBW_cons_c B x _ hx]
  have hnb12 : ∀ l ∈ b1 ++ b2, startsWithL (cs "b=") l = false := by
    intro l hl
    rcases List.mem_append.mp hl with h | h
    · exact hb1 l h
    · exact hb2 l h
  have hnm12 : ∀ l ∈ b1 ++ b2, startsWithL (cs "m=") l = false := by
    intro l hl
    rcases List.mem_append.mp hl with h | h
    · exact hm l (by simp [h])
    · exact hm l (by simp [h])
  have hshape : pre ++ v :: (a ++ x :: tiasLine B :: asLine B :: (cb ++ post)) =
      pre ++ v :: ((a ++ [x, tiasLine B, asLine B]) ++ (cb ++ post)) := by
    simp
  rw [effectiveVideoBitrate, hshape, videoSection_eq _ _ _ hpre hv,
    takeWhileAppend _ _ _ ?hall]
  case hall =>
    intro l hl
    rcases List.mem_append.mp hl with h | h
    · simp [hnm12 l (hmem_b12 l (by simp [h]))]
    · simp only [List.mem_cons, List.not_mem_nil, or_false] at h
      rcases h with rfl | rfl | rfl
      · simp [hnm12 l (hmem_b12 l (by simp))]
      · simp [tias_not_m]
      · simp [as_not_m]
  have hflat : (a ++ [x, tiasLine B, asLine B]) ++
        (cb ++ post).takeWhile (fun l => !startsWithL (cs "m=") l) =
      a ++ x :: tiasLine B :: asLine B ::
        (cb ++ post).takeWhile (fun l => !startsWithL (cs "m=") l) := by
    simp
  rw [hflat, findFirstAppend _ a _
      (fun l hl => hnb12 l (hmem_b12 l (by simp [hl]))),
    List.find?_cons_of_neg _ (by simp [not_b_of_c x hx]),
    List.find?_cons_of_pos _ (by simp [tias_b])]
  simp [bLineBps_tiasLine]

/-- Witness for C3 amended: `v=0`, a video section with a `c=IN` line and
    a `b=TIAS:500000` declaration, ceiling 2,000,000 bps — the output's
    effective video bitrate stays 500,000 bps. -/
theorem limitSDPBandwidth_never_raises_witness :
    effectiveVideoBitrate
      (limitSDPBandwidth
        ⟨cs "offer",
          [cs "v=0"] ++ cs "m=video 9" ::
            ([cs "c=IN IP4 0.0.0.0"] ++ cs "b=TIAS:500000" :: ([] ++ []))⟩
        (.num 2000000)).sdp = some 500000 :=
  limitSDPBandwidth_never_raises (cs "offer") [cs "v=0"] (cs "m=video 9")
    [cs "c=IN IP4 0.0.0.0"] (cs "b=TIAS:500000") [] [] 500000 2000000
    (by decide) (by decide) (by decide) (by decide) (by decide) (by decide)
    (by decide) (by decide) (by decide) (by decide) (by decide)

theorem not_b_of_m (l : Line) (h : startsWithL (cs "m=") l = true) :
    startsWithL (cs "b=") l = false := by
  obtain ⟨t, rfl⟩ := startsWithL_head 'm' (cs "=") l h
  rfl

theorem findTIAS_mid (a : List Line) (x : Line) (n : Nat) (tail : List Line)
    (hab : ∀ l ∈ a, startsWithL (cs "b=") l = false)
    (hx : startsWithL (cs "b=") x = false) :
    (a ++ x :: tiasLine n :: tail).find?
        (fun l => startsWithL (cs "b=TIAS") l) = some (tiasLine n) := by
  rw [findFirstAppend _ a _ (fun l hl => not_bTIAS_of_not_b l (hab l hl)),
    List.find?_cons_of_neg _ (by simp [not_bTIAS_of_not_b x hx]),
    List.find?_cons_of_pos _ (by simp [tias_TIAS])]

theorem findAS_mid (a : List Line) (x : Line) (n : Nat) (tail : List Line)
    (hab : ∀ l ∈ a, startsWithL (cs "b=") l = false)
    (hx : startsWithL (cs "b=") x = false) :
    (a ++ x :: tiasLine n :: asLine n :: tail).find?
        (fun l => startsWithL (cs "b=AS") l) = some (asLine n) := by
  rw [findFirstAppend _ a _ (fun l hl => not_bAS_of_not_b l (hab l hl)),
    List.find?_cons_of_neg _ (by simp [not_bAS_of_not_b x hx]),
    List.find?_cons_of_neg _ (by simp [tias_not_AS]),
    List.find?_cons_of_pos _ (by simp [as_AS])]

/-! ## Claim C4: BandwidthShaper idempotence on ceiling-only inputs -/

/-- C4: on a session description with a single video section and no
    pre-existing `b=` lines anywhere (`body` is the video section's body,
    `post` the remaining sections), applying `limitSDPBandwidth` with the
    same ceiling `C` to its own output leaves the effective bitrate
    values — the `b=TIAS` bps value and the `b=AS` kbps value of the
    video section — unchanged from the first application. -/
theorem limitSDPBandwidth_value_idempotent (ty : Line) (pre : List Line) (v : Line)
    (body post : List Line) (C : Nat)
    (hv : startsWithL (cs "m=video") v = true)
    (hpre : ∀ l ∈ pre, startsWithL (cs "m=video") l = false)
    (hnb : ∀ l ∈ body ++ post, startsWithL (cs "b=") l = false)
    (hbody : ∀ l ∈ body, startsWithL (cs "m=") l = false)
    (hpost : post = [] ∨ ∃ p ps, post = p :: ps ∧ startsWithL (cs "m=") p = true) :
    effTIAS (limitSDPBandwidth
        (limitSDPBandwidth ⟨ty, pre ++ v :: (body ++ post)⟩ (.num C)) (.num C)).sdp =
      effTIAS (limitSDPBandwidth ⟨ty, pre ++ v :: (body ++ post)⟩ (.num C)).sdp ∧
    effAS (limitSDPBandwidth
        (limitSDPBandwidth ⟨ty, pre ++ v :: (body ++ post)⟩ (.num C)) (.num C)).sdp =
      effAS (limitSDPBandwidth ⟨ty, pre ++ v :: (body ++ post)⟩ (.num C)).sdp := by
  have hred : (limitSDPBandwidth
      (limitSDPBandwidth ⟨ty, pre ++ v :: (body ++ post)⟩ (.num C)) (.num C)).sdp =
      limitLines (.num C) (limitLines (.num C) (pre ++ v :: (body ++ post))) := rfl
  have hred1 : (limitSDPBandwidth ⟨ty, pre ++ v :: (body ++ post)⟩ (.num C)).sdp =
      limitLines (.num C) (pre ++ v :: (body ++ post)) := rfl
  rw [hred, hred1]
  have hscan1 : scanB (.num C) (body ++ post) = (.num C, body ++ post) :=
    scanB_no_b _ _ hnb
  by_cases hC : C = 0
  · subst hC
    have ho1 : limitLines (.num 0) (pre ++ v :: (body ++ post)) =
        pre ++ v :: (body ++ post) := by
      rw [limitLines_eq _ _ _ _ hpre hv, hscan1]
      simp [JSNum.truthy]
    rw [ho1, ho1]
    exact ⟨rfl, rfl⟩
  · have htr : (JSNum.num C).truthy = true := truthy_num C hC
    have hval : (JSNum.num C).val = C := rfl
    by_cases hcb : body.any (fun l => startsWithL (cs "c=IN") l) = true
    · -- the video body holds the first connection-data line
      obtain ⟨a, x, cb, hsplit, hx, hna⟩ :=
        splitFirst (fun l => startsWithL (cs "c=IN") l) body hcb
      have hmem_body : ∀ l ∈ a ++ x :: cb, l ∈ body := by
        intro l hl
        rw [hsplit]
        exact hl
      have hainfo : ∀ l ∈ a, startsWithL (cs "b=") l = false ∧
          startsWithL (cs "m=") l = false :=
        fun l hl => ⟨hnb l (by simp [hmem_body l (by simp [hl])]),
          hbody l (hmem_body l (by simp [hl]))⟩
      have hxb : startsWithL (cs "b=") x = false := not_b_of_c x hx
      have hxm : startsWithL (cs "m=") x = false := hbody x (hmem_body x (by simp))
      have hcbpost_nb : ∀ l ∈ cb ++ post, startsWithL (cs "b=") l = false := by
        intro l hl
        rcases List.mem_append.mp hl with h | h
        · exact hnb l (by simp [hmem_body l (by simp [h])])
        · exact hnb l (by simp [h])
      have hrest : body ++ post = a ++ x :: (cb ++ post) := by
        rw [hsplit]
        simp
      have ho1 : limitLines (.num C) (pre ++ v :: (body ++ post)) =
          pre ++ v :: (a ++ x :: tiasLine C :: asLine C :: (cb ++ post)) := by
        rw [limitLines_eq _ _ _ _ hpre hv, hscan1]
        simp only [htr, if_true, hval]
        rw [hrest, insertBW_pass _ _ _ hna, insertBW_cons_c _ _ _ hx]
      rw [ho1]
      have hscan2 : scanB (.num C)
          (a ++ x :: tiasLine C :: asLine C :: (cb ++ post)) =
          (.num C, a ++ x :: asLine C :: (cb ++ post)) := by
        rw [scanB_pass _ a _ hainfo, scanB_skip _ x _ hxb hxm,
          scanB_b_cons _ _ _ _ (tias_b C), bLineBps_tiasLine, updateBW_self C hC,
          scanB_no_b _ _ hcbpost_nb]
      have ho2 : limitLines (.num C)
          (pre ++ v :: (a ++ x :: tiasLine C :: asLine C :: (cb ++ post))) =
          pre ++ v :: (a ++ x :: tiasLine C :: asLine C :: asLine C :: (cb ++ post)) := by
        rw [limitLines_eq _ _ _ _ hpre hv, hscan2]
        simp only [htr, if_true, hval]
        rw [insertBW_pass _ _ _ hna, insertBW_cons_c _ _ _ hx]
      rw [ho2]
      have hallsat : ∀ l ∈ a ++ [x, tiasLine C, asLine C],
          (fun l => !startsWithL (cs "m=") l) l = true := by
        intro l hl
        rcases List.mem_append.mp hl with h | h
        · simp [(hainfo l h).2]
        · simp only [List.mem_cons, List.not_mem_nil, or_false] at h
          rcases h with rfl | rfl | rfl
          · simp [hxm]
          · simp [tias_not_m]
          · simp [as_not_m]
      have hallsat2 : ∀ l ∈ a ++ [x, tiasLine C, asLine C, asLine C],
          (fun l => !startsWithL (cs "m=") l) l = true := by
        intro l hl
        rcases List.mem_append.mp hl with h | h
        · simp [(hainfo l h).2]
        · simp only [List.mem_cons, List.not_mem_nil, or_false] at h
          rcases h with rfl | rfl | rfl | rfl
          · simp [hxm]
          · simp [tias_not_m]
          · simp [as_not_m]
          · simp [as_not_m]
      have hvs1 : videoSection
          (pre ++ v :: (a ++ x :: tiasLine C :: asLine C :: (cb ++ post))) =
          a ++ x :: tiasLine C :: asLine C ::
            ((cb ++ post).takeWhile (fun l => !startsWithL (cs "m=") l)) := by
        have hsh : a ++ x :: tiasLine C :: asLine C :: (cb ++ post) =
            (a ++ [x, tiasLine C, asLine C]) ++ (cb ++ post) := by simp
        rw [videoSection_eq _ _ _ hpre hv, hsh, takeWhileAppend _ _ _ hallsat]
        simp
      have hvs2 : videoSection
          (pre ++ v :: (a ++ x :: tiasLine C :: asLine C :: asLine C :: (cb ++ post))) =
          a ++ x :: tiasLine C :: asLine C :: asLine C ::
            ((cb ++ post).takeWhile (fun l => !startsWithL (cs "m=") l)) := by
        have hsh : a ++ x :: tiasLine C :: asLine C :: asLine C :: (cb ++ post) =
            (a ++ [x, tiasLine C, asLine C, asLine C]) ++ (cb ++ post) := by simp
        rw [videoSection_eq _ _ _ hpre hv, hsh, takeWhileAppend _ _ _ hallsat2]
        simp
      have hab : ∀ l ∈ a, startsWithL (cs "b=") l = false :=
        fun l hl => (hainfo l hl).1
      constructor
      · rw [effTIAS, effTIAS, hvs1, hvs2, findTIAS_mid a x C _ hab hxb,
          findTIAS_mid a x C _ hab hxb]
      · rw [effAS, effAS, hvs1, hvs2, findAS_mid a x C _ hab hxb,
          findAS_mid a x C _ hab hxb]
    · by_cases hcp : post.any (fun l => startsWithL (cs "c=IN") l) = true
      · -- connection-data only in a later section; post begins with m=
        have hpostne : post ≠ [] := by
          intro hnil
          rw [hnil] at hcp
          simp at hcp
        obtain ⟨p, ps, hpp, hpm⟩ :
            ∃ p ps, post = p :: ps ∧ startsWithL (cs "m=") p = true := by
          rcases hpost with h | h
          · exact absurd h hpostne
          · exact h
        have hbody_nc : ∀ l ∈ body, startsWithL (cs "c=IN") l = false := by
          intro l hl
          by_contra hc
          exact hcb (List.any_eq_true.mpr ⟨l, hl, by simpa using hc⟩)
        obtain ⟨a, x, cb, hsplit, hx, hna⟩ :=
          splitFirst (fun l => startsWithL (cs "c=IN") l) post hcp
        obtain ⟨arest, rfl⟩ : ∃ arest, a = p :: arest := by
          cases ha : a with
          | nil =>
            exfalso
            rw [ha, List.nil_append] at hsplit
            have hpx : p = x := by
              have h := hpp.symm.trans hsplit
              injection h with h1 h2
            obtain ⟨t, hxt⟩ := startsWithL_head 'c' _ x hx
            obtain ⟨t2, hpt⟩ := startsWithL_head 'm' _ p hpm
            rw [← hpx, hpt] at hxt
            simp at hxt
          | cons a0 arest =>
            rw [ha, List.cons_append] at hsplit
            have h := hpp.symm.trans hsplit
            injection h with h1 h2
            exact ⟨arest, by rw [h1]⟩
        have hbody_info : ∀ l ∈ body, startsWithL (cs "b=") l = false ∧
            startsWithL (cs "m=") l = false :=
          fun l hl => ⟨hnb l (by simp [hl]), hbody l hl⟩
        have hpb : startsWithL (cs "b=") p = false := not_b_of_m p hpm
        have ho1 : limitLines (.num C) (pre ++ v :: (body ++ post)) =
            pre ++ v :: (body ++ (p :: arest ++
              x :: tiasLine C :: asLine C :: cb)) := by
          rw [limitLines_eq _ _ _ _ hpre hv, hscan1]
          simp only [htr, if_true, hval]
          rw [hsplit, insertBW_pass _ body _ hbody_nc,
            insertBW_pass _ _ _ hna, insertBW_cons_c _ _ _ hx]
        rw [ho1]
        have hscan2 : scanB (.num C) (body ++ (p :: arest ++
            x :: tiasLine C :: asLine C :: cb)) =
            (.num C, body ++ (p :: arest ++
              x :: tiasLine C :: asLine C :: cb)) := by
          rw [scanB_pass _ body _ hbody_info, List.cons_append,
            scanB_stop _ p _ hpb hpm]
        have ho2 : limitLines (.num C) (pre ++ v :: (body ++ (p :: arest ++
            x :: tiasLine C :: asLine C :: cb))) =
            pre ++ v :: (body ++ (p :: arest ++
              x :: tiasLine C :: asLine C :: tiasLine C :: asLine C :: cb)) := by
          rw [limitLines_eq _ _ _ _ hpre hv, hscan2]
          simp only [htr, if_true, hval]
          rw [insertBW_pass _ body _ hbody_nc, insertBW_pass _ _ _ hna,
            insertBW_cons_c _ _ _ hx]
        rw [ho2]
        have hvs : ∀ tail : List Line,
            videoSection (pre ++ v :: (body ++ (p :: arest ++ tail))) = body := by
          intro tail
          rw [videoSection_eq _ _ _ hpre hv,
            takeWhileAppend _ _ _ (fun l hl => by simp [hbody l hl]),
            List.cons_append, List.takeWhile_cons]
          simp [hpm]
        constructor
        · rw [effTIAS, effTIAS, hvs, hvs]
        · rw [effAS, effAS, hvs, hvs]
      · -- no connection-data line anywhere: nothing inserted
        have hnc : ∀ l ∈ body ++ post, startsWithL (cs "c=IN") l = false := by
          intro l hl
          rcases List.mem_append.mp hl with h | h
          · by_contra hc
            exact hcb (List.any_eq_true.mpr ⟨l, h, by simpa using hc⟩)
          · by_contra hc
            exact hcp (List.any_eq_true.mpr ⟨l, h, by simpa using hc⟩)
        have ho1 : limitLines (.num C) (pre ++ v :: (body ++ post)) =
            pre ++ v :: (body ++ post) := by
          rw [limitLines_eq _ _ _ _ hpre hv, hscan1]
          simp only [htr, if_true, hval]
          rw [insertBW_no_c _ _ hnc]
        rw [ho1, ho1]
        exact ⟨rfl, rfl⟩

/-- Witness for C4: `v=0`, a video section with only a `c=IN` line, a
    trailing audio section, ceiling 1,000,000 bps. -/
theorem limitSDPBandwidth_value_idempotent_witness :
    effTIAS (limitSDPBandwidth
        (limitSDPBandwidth
          ⟨cs "offer",
            [cs "v=0"] ++ cs "m=video 9" ::
              ([cs "c=IN IP4 0.0.0.0"] ++ [cs "m=audio 9"])⟩ (.num 1000000))
        (.num 1000000)).sdp =
      effTIAS (limitSDPBandwidth
        ⟨cs "offer",
          [cs "v=0"] ++ cs "m=video 9" ::
            ([cs "c=IN IP4 0.0.0.0"] ++ [cs "m=audio 9"])⟩ (.num 1000000)).sdp ∧
    effAS (limitSDPBandwidth
        (limitSDPBandwidth
          ⟨cs "offer",
            [cs "v=0"] ++ cs "m=video 9" ::
              ([cs "c=IN IP4 0.0.0.0"] ++ [cs "m=audio 9"])⟩ (.num 1000000))
        (.num 1000000)).sdp =
      effAS (limitSDPBandwidth
        ⟨cs "offer",
          [cs "v=0"] ++ cs "m=video 9" ::
            ([cs "c=IN IP4 0.0.0.0"] ++ [cs "m=audio 9"])⟩ (.num 1000000)).sdp :=
  limitSDPBandwidth_value_idempotent (cs "offer") [cs "v=0"] (cs "m=video 9")
    [cs "c=IN IP4 0.0.0.0"] [cs "m=audio 9"] 1000000
    (by decide) (by decide) (by decide) (by decide)
    (Or.inr ⟨cs "m=audio 9", [], rfl, by decide⟩)
